import Mathlib

/-!
Shallow embedding of django-hvad (`hvad/models.py`): translatable models.

The file models the constraint partitioner (`TranslatedFields._split_together`),
the base scan (`TranslatedFields._scan_model_bases`), the entity lifecycle
(`TranslatableModel.__init__`, `from_db`, `save`, `translate`) and the model
checks (`_check_shared_translated_clash`, `_check_ordering`), and proves the
specification claims about them.

Python values appearing in model fields are modelled by the `Value` type;
keyword-argument dictionaries by association lists `List (String × Value)`;
field sets by lists of names. Functions that raise `ImproperlyConfigured` or
`TypeError` are modelled with `Except String`.
-/

set_option autoImplicit false

namespace Hvad

/-- A Python value as it appears in model kwargs: strings, integers, `None`,
the `NoTranslation` sentinel (`NoTranslation = object()`, a truthy object),
and the `models.DEFERRED` marker (also a plain truthy object). -/
inductive Value where
  | vstr : String → Value
  | vint : Int → Value
  | vnone : Value
  | noTranslation : Value
  | deferred : Value
  deriving DecidableEq, Repr

/-- Python truthiness of a `Value`: empty string, zero and `None` are falsy;
the sentinel objects are truthy. -/
def Value.truthy : Value → Bool
  | Value.vstr s => !s.isEmpty
  | Value.vint n => n != 0
  | Value.vnone => false
  | Value.noTranslation => true
  | Value.deferred => true

/-- Whether an `Except` result is the success case (`isOk`). -/
def exceptOk {ε α : Type} : Except ε α → Bool
  | Except.ok _ => true
  | Except.error _ => false

/-! ## Constraint partitioner: `TranslatedFields._split_together`

```python
sconst, tconst = [], []
for constraint in constraints:
    if all(item in fields for item in constraint):
        tconst.append(constraint)
    elif not any(item in fields for item in constraint):
        sconst.append(constraint)
    else:
        raise ImproperlyConfigured(...)
return sconst, tconst
```
-/

/-- `TranslatedFields._split_together(constraints, fields, name)`: split the
`constraints` sequence into (shared, translated) by membership of every item
in the translated field set `fields`; raise on a mixed constraint. -/
def split_together : List (List String) → List String → String →
    Except String (List (List String) × List (List String))
  | [], _, _ => Except.ok ([], [])
  | c :: cs, fields, name =>
    if c.all (fun item => decide (item ∈ fields)) then
      match split_together cs fields name with
      | Except.ok (s, t) => Except.ok (s, c :: t)
      | Except.error e => Except.error e
    else if !(c.any (fun item => decide (item ∈ fields))) then
      match split_together cs fields name with
      | Except.ok (s, t) => Except.ok (c :: s, t)
      | Except.error e => Except.error e
    else
      Except.error ("Constraints in Meta." ++ name ++
        " cannot mix translated and untranslated fields.")

/-- A constraint mixes translated and untranslated fields. -/
def mixedConstraint (fields c : List String) : Prop :=
  (∃ i ∈ c, i ∈ fields) ∧ (∃ j ∈ c, j ∉ fields)

/-! ## Entity lifecycle: `TranslatableModel.__init__`, `from_db`, `save`,
`translate`

A translation record instance is its `language_code` field, the remaining
field assignments, and a primary key (`none` while unsaved). A shared entity
instance is its shared field assignments plus the cached active translation
(`set_cached_translation` slot). -/

structure Translation where
  language_code : Value
  fields : List (String × Value)
  pk : Option Nat
  deriving DecidableEq, Repr

structure Instance where
  shared : List (String × Value)
  translation : Option Translation
  deriving DecidableEq, Repr

/-- `veto_names = ('pk', 'master', 'master_id', self._meta.translations_model._meta.pk.name)` -/
def vetoNames (tpkName : String) : List String :=
  ["pk", "master", "master_id", tpkName]

/-- The kwargs loop of `TranslatableModel.__init__`: a key in `veto_names`
goes to `skwargs`; otherwise `translations_opts.get_field(key)` decides —
`FieldDoesNotExist` (the key is not a translation-schema field name) sends it
to `skwargs`, success sends it to `tkwargs`. `tfieldNames` is the set of
names resolvable on the translation schema. -/
def splitKwargs (veto tfieldNames : List String) :
    List (String × Value) → List (String × Value) × List (String × Value)
  | [] => ([], [])
  | kv :: rest =>
    let s := (splitKwargs veto tfieldNames rest).1
    let t := (splitKwargs veto tfieldNames rest).2
    if kv.1 ∈ veto then (kv :: s, t)
    else if kv.1 ∈ tfieldNames then (s, kv :: t)
    else (kv :: s, t)

/-- `tkwargs.get('language_code') or get_language()`: a missing or falsy
explicit value falls back to the ambient active language. -/
def resolveLanguage (explicitLang : Option Value) (ambient : Value) : Value :=
  match explicitLang with
  | some v => if v.truthy then v else ambient
  | none => ambient

/-- Python dict assignment `d[k] = v`: replace in place or append. -/
def setKey : List (String × Value) → String → Value → List (String × Value)
  | [], k, v => [(k, v)]
  | kv :: rest, k, v =>
    if kv.1 = k then (k, v) :: rest else kv :: setKey rest k v

/-- `self._meta.translations_model(**tkwargs)`: build an unsaved translation
instance from keyword arguments; `language_code` is one of its schema fields. -/
def newTranslation (kwargs : List (String × Value)) : Translation :=
  { language_code := match kwargs.lookup "language_code" with
      | some v => v
      | none => Value.vnone,
    fields := kwargs.filter (fun kv => kv.1 ≠ "language_code"),
    pk := none }

/-- `TranslatableModel.__init__(*args, **kwargs)`: split kwargs between the
shared superclass constructor and the translations model, resolve the initial
language, and attach a new unsaved translation unless the resolved language
is the `NoTranslation` sentinel. Positional `args` bind the shared concrete
fields in order. -/
def hvadInit (tpkName : String) (tfieldNames concreteFields : List String)
    (ambient : Value) (args : List Value) (kwargs : List (String × Value)) :
    Instance :=
  let veto := vetoNames tpkName
  let skwargs := (splitKwargs veto tfieldNames kwargs).1
  let tkwargs := (splitKwargs veto tfieldNames kwargs).2
  let shared := concreteFields.zip args ++ skwargs
  let language_code := resolveLanguage (tkwargs.lookup "language_code") ambient
  if language_code ≠ Value.noTranslation then
    { shared := shared,
      translation := some (newTranslation (setKey tkwargs "language_code" language_code)) }
  else
    { shared := shared, translation := none }

/-- The deferred-marking comprehension of `from_db`:
`[values.pop() if f.attname in field_names else DEFERRED for f in concrete_fields]`
(`values` was reversed first, so `pop()` consumes the original list front to
back); popping an exhausted list is an `IndexError`, modelled as `none`. -/
def deferValues (field_names : List String) :
    List String → List Value → Option (List Value)
  | [], _ => some []
  | f :: fs, vs =>
    if f ∈ field_names then
      match vs with
      | [] => none
      | v :: vs0 => (deferValues field_names fs vs0).map (fun out => v :: out)
    else
      (deferValues field_names fs vs).map (fun out => Value.deferred :: out)

/-- `TranslatableModel.from_db(db, field_names, values)`: mark missing values
as deferred when fewer values than concrete fields arrive, then construct the
instance positionally with `language_code=NoTranslation`. -/
def from_db (tpkName : String) (tfieldNames concreteFields : List String)
    (ambient : Value) (field_names : List String) (values : List Value) :
    Option Instance :=
  if values.length ≠ concreteFields.length then
    (deferValues field_names concreteFields values).map (fun vs =>
      hvadInit tpkName tfieldNames concreteFields ambient vs
        [("language_code", Value.noTranslation)])
  else
    some (hvadInit tpkName tfieldNames concreteFields ambient values
      [("language_code", Value.noTranslation)])

/-- The `update_fields` split loop of `TranslatableModel.save`: same
veto/get_field partition as the constructor's kwargs split. -/
def splitUpdateFields (veto tfieldNames : List String) :
    List String → List String × List String
  | [] => ([], [])
  | name :: rest =>
    let s := (splitUpdateFields veto tfieldNames rest).1
    let t := (splitUpdateFields veto tfieldNames rest).2
    if name ∈ veto then (name :: s, t)
    else if name ∈ tfieldNames then (s, name :: t)
    else (name :: s, t)

/-- The observable writes of one `save` call: for each of the two records,
`none` means the record is not written at all, `some uf` means its `save` is
invoked with `update_fields` restriction `uf` (`some uf = some none` being an
unrestricted save). -/
structure SaveEffects where
  sharedSave : Option (Option (List String))
  translationSave : Option (Option (List String))
  deriving DecidableEq, Repr

/-- `TranslatableModel.save(update_fields=...)`: split `update_fields`, save
the shared record when no list was given or its shared partition is nonempty,
and save the attached translation when no list was given or its translated
partition is nonempty — dropping the restriction when the translation is new
(`pk is None`) and a nonempty list was given. -/
def hvadSave (tpkName : String) (tfieldNames : List String)
    (translation : Option Translation)
    (update_fields : Option (List String)) : SaveEffects :=
  let veto := vetoNames tpkName
  match update_fields with
  | none =>
    { sharedSave := some none,
      translationSave := translation.map (fun _ => none) }
  | some uf =>
    let supdate := (splitUpdateFields veto tfieldNames uf).1
    let tupdate := (splitUpdateFields veto tfieldNames uf).2
    { sharedSave := if supdate ≠ [] then some (some supdate) else none,
      translationSave :=
        match translation with
        | none => none
        | some tr =>
          if tupdate ≠ [] then
            some (if tr.pk = none ∧ uf ≠ [] then none else some tupdate)
          else none }

/-- `TranslatableModel.translate(language_code)`:
`set_cached_translation(self, self._meta.translations_model(language_code=language_code))`. -/
def translate (inst : Instance) (language_code : Value) : Instance :=
  { inst with translation := some (newTranslation [("language_code", language_code)]) }

/-! ## Model checks: `_check_shared_translated_clash`, `_check_ordering` -/

/-- A model field as seen by the checks: its `name` and its `attname` (the
storage-column accessor name; equal to `name` except for foreign keys, where
`attname = name + "_id"`). -/
structure MField where
  name : String
  attname : String
  deriving DecidableEq, Repr

/-- `set(chain.from_iterable((f.name, f.attname) for f in fields))`: the
set of identifiers of a field list, as a deduplicated list (Python set
contents with a canonical iteration order). -/
def fieldIdents (fs : List MField) : List String :=
  ((fs.map (fun f => [f.name, f.attname])).flatten).dedup

/-- `TranslatableModel._check_shared_translated_clash()`: one
`checks.Error` (id `hvad.models.E01`) per identifier appearing both among
the shared fields' name/attname set and the translation fields' name/attname
set, translation fields named `id` or `master` excluded. Errors are returned
as a list, never raised. -/
def check_shared_translated_clash (sharedFields tFields : List MField) :
    List String :=
  let fields := fieldIdents sharedFields
  let tfields := fieldIdents (tFields.filter
    (fun f => decide (f.name ∉ ["id", "master"])))
  tfields.filter (fun s => decide (s ∈ fields))

/-- `f.startswith('-')`, over the entry's character sequence. -/
def startsWithDash (f : String) : Bool :=
  match f.data with
  | c :: _ => c == '-'
  | [] => false

/-- `f[1:]`: drop the first character, over the character sequence. -/
def dropOne (f : String) : String :=
  match f.data with
  | _ :: rest => String.mk rest
  | [] => f

def hasDunderAux : List Char → Bool
  | c1 :: c2 :: rest =>
    if c1 = '_' ∧ c2 = '_' then true else hasDunderAux (c2 :: rest)
  | _ => false

/-- `'__' in f`: the entry contains the relation-lookup separator. -/
def hasDunder (f : String) : Bool := hasDunderAux f.data

/-- `TranslatableModel._check_ordering()`: drop `'?'` entries, strip a
leading `'-'`, drop `'pk'`, `'_order'` and relation lookups (`'__'`), then
report one `models.E015` error per remaining name resolving against neither
the shared fields nor the translation fields (the latter excluding `master`
and `language_code`). The `ordering` option is modelled as a list, so the
`isinstance(ordering, (list, tuple))` guard is always satisfied. -/
def check_ordering (ordering : List String) (sharedFields tFields : List MField) :
    List String :=
  if ordering = [] then []
  else
    let fields0 := ordering.filter (fun f => decide (f ≠ "?"))
    let fields1 := fields0.map (fun f => if startsWithDash f then dropOne f else f)
    let fields2 := (fields1.filter
      (fun f => decide (f ∉ ["_order", "pk"]) && !(hasDunder f))).dedup
    let valid_fields := fieldIdents sharedFields
    let valid_tfields := fieldIdents (tFields.filter
      (fun f => decide (f.name ∉ ["master", "language_code"])))
    fields2.filter
      (fun f => decide (f ∉ valid_fields) && decide (f ∉ valid_tfields))

/-! ## Base scan: `TranslatedFields._scan_model_bases`

```python
bases, fields = list(), set()
scan_bases = list(reversed(model.__bases__))
while scan_bases:
    base = scan_bases.pop()
    if base is TranslatableModel or not issubclass(base, TranslatableModel):
        continue
    if not base._meta.abstract:
        raise TypeError('Multi-table inheritance ... is not supported. ...')
    if hasattr(base._meta, 'translations_model'):
        bases.append(base._meta.translations_model)
        fields.update(field.name for field in ..._meta.fields)
    else:
        scan_bases.extend(reversed(base.__bases__))
```

`list(reversed(...))` plus `pop()` from the end processes bases in
declaration order, and `extend(reversed(...))` makes the walk a depth-first
preorder; the stack is modelled with the next class to process in front, so
descending into a base prepends its `__bases__`. A translations model is
represented by its list of field names. -/

/-- How a class relates to `TranslatableModel`: not a subclass at all, the
`TranslatableModel` class itself (skipped by the scan), or a proper
subclass. -/
inductive TMKind where
  | plain
  | root
  | sub
  deriving DecidableEq, Repr

/-- A model class as the base scan sees it: `__name__`, `_meta.abstract`,
its relationship to `TranslatableModel`, the field names of its
`_meta.translations_model` when that attribute exists, and `__bases__`. -/
inductive MClass where
  | mk : String → Bool → TMKind → Option (List String) → List MClass → MClass
  deriving Repr

/-- The `while scan_bases` loop of `_scan_model_bases`, over the pending
stack: skip non-translatable bases and `TranslatableModel` itself, raise
`TypeError` on a concrete translatable base, inherit an existing
translations model (collecting it and its field names), and otherwise
descend into the base's own bases. -/
def scanStack : List MClass → Except String (List (List String) × List String)
  | [] => Except.ok ([], [])
  | MClass.mk name abstract kind transFields bases :: rest =>
    if kind ≠ TMKind.sub then scanStack rest
    else if !abstract then
      Except.error ("Multi-table inheritance of translatable models is not " ++
        "supported. Concrete model " ++ name ++ " is not a valid base model.")
    else
      match transFields with
      | some tfs =>
        match scanStack rest with
        | Except.ok (bs, fs) => Except.ok (tfs :: bs, tfs ++ fs)
        | Except.error e => Except.error e
      | none => scanStack (bases ++ rest)
termination_by stack => sizeOf stack
decreasing_by
  all_goals simp_wf
  all_goals
    have happ : ∀ l1 : List MClass,
        sizeOf (l1 ++ rest) + 1 = sizeOf l1 + sizeOf rest := by
      intro l1
      induction l1 with
      | nil =>
        have h0 : sizeOf ([] : List MClass) = 1 := rfl
        simp only [List.nil_append]
        omega
      | cons a l ih => simp only [List.cons_append, List.cons.sizeOf_spec]; omega
  all_goals have := happ bases
  all_goals omega

/-- `TranslatedFields._scan_model_bases(model)`: run the scan over the
model's `__bases__` (the final unconditional `bases.append(BaseTranslationModel)`
adds no translated field and is omitted). -/
def scan_model_bases (modelBases : List MClass) :
    Except String (List (List String) × List String) :=
  scanStack modelBases

/-- `TranslatedFields.create_translations_model`, restricted to its
fallible schema-synthesis steps: scan the bases (line 79), then — inside
`_build_meta_class` — split `unique_together` and `index_together` over the
translated field set (inherited fields ∪ declared fields ∪ language_code).
The returned record carries the inherited translation bases and fields and
the four constraint partitions. -/
def create_translations_model (modelBases : List MClass)
    (declared : List String) (unique_together index_together : List (List String)) :
    Except String ((List (List String) × List String) ×
      (List (List String) × List (List String)) ×
      (List (List String) × List (List String))) :=
  match scan_model_bases modelBases with
  | Except.error e => Except.error e
  | Except.ok (tbases, tfields) =>
    match split_together unique_together (tfields ++ declared ++ ["language_code"])
        "unique_together" with
    | Except.error e => Except.error e
    | Except.ok uconst =>
      match split_together index_together (tfields ++ declared ++ ["language_code"])
          "index_together" with
      | Except.error e => Except.error e
      | Except.ok iconst => Except.ok ((tbases, tfields), uconst, iconst)

mutual

/-- `c` is, or has among its ancestors (transitive closure of `__bases__`),
a concrete proper subclass of `TranslatableModel`. -/
def MClass.hasCTA : MClass → Bool
  | MClass.mk _ abstract kind _ bases =>
    (decide (kind = TMKind.sub) && !abstract) || hasCTAL bases

/-- Some class in the list satisfies `MClass.hasCTA`. -/
def hasCTAL : List MClass → Bool
  | [] => false
  | c :: cs => MClass.hasCTA c || hasCTAL cs

end

mutual

/-- Well-formedness of a class hierarchy as Python produces it: (i) a class
that is not a proper subclass of `TranslatableModel` has no concrete
translatable ancestor (`issubclass` is transitive, so a class with a
translatable ancestor is itself a translatable subclass); (ii) a class
carrying a `translations_model` attribute went through
`create_translations_model` itself, whose base scan succeeded; (iii) the
same holds recursively for all its bases. -/
def MClass.wfb : MClass → Bool
  | MClass.mk _ _ kind transFields bases =>
    wfbL bases
    && (if kind = TMKind.sub then true else !hasCTAL bases)
    && (if transFields.isSome then exceptOk (scanStack bases) else true)

/-- Every class in the list satisfies `MClass.wfb`. -/
def wfbL : List MClass → Bool
  | [] => true
  | c :: cs => MClass.wfb c && wfbL cs

end

theorem split_together_ok (cs : List (List String)) (fields : List String)
    (name : String) (s t : List (List String))
    (h : split_together cs fields name = Except.ok (s, t)) :
    s = cs.filter (fun c => !(c.all (fun item => decide (item ∈ fields)))) ∧
    t = cs.filter (fun c => c.all (fun item => decide (item ∈ fields))) := by
  induction cs generalizing s t with
  | nil =>
    simp only [split_together, Except.ok.injEq, Prod.mk.injEq] at h
    simp [← h.1, ← h.2]
  | cons c cs ih =>
    by_cases hall : c.all (fun item => decide (item ∈ fields))
    · rw [split_together, if_pos hall] at h
      cases hr : split_together cs fields name with
      | ok st =>
        obtain ⟨s0, t0⟩ := st
        rw [hr] at h
        simp only [Except.ok.injEq, Prod.mk.injEq] at h
        obtain ⟨ih1, ih2⟩ := ih s0 t0 hr
        simp [← h.1, ← h.2, ih1, ih2, List.filter, hall]
      | error e => rw [hr] at h; exact absurd h (by simp)
    · rw [split_together, if_neg hall] at h
      by_cases hany : c.any (fun item => decide (item ∈ fields))
      · rw [if_neg (by simp [hany])] at h
        exact absurd h (by simp)
      · rw [if_pos (by simp [hany])] at h
        cases hr : split_together cs fields name with
        | ok st =>
          obtain ⟨s0, t0⟩ := st
          rw [hr] at h
          simp only [Except.ok.injEq, Prod.mk.injEq] at h
          obtain ⟨ih1, ih2⟩ := ih s0 t0 hr
          simp [← h.1, ← h.2, ih1, ih2, List.filter, hall]
        | error e => rw [hr] at h; exact absurd h (by simp)

theorem split_together_error_iff (cs : List (List String)) (fields : List String)
    (name : String) :
    exceptOk (split_together cs fields name) = false ↔
      ∃ c ∈ cs, mixedConstraint fields c := by
  induction cs with
  | nil => simp [split_together, exceptOk]
  | cons c cs ih =>
    by_cases hall : c.all (fun item => decide (item ∈ fields))
    · rw [split_together, if_pos hall]
      have hnotmix : ¬ mixedConstraint fields c := by
        intro ⟨_, j, hj, hjn⟩
        simp only [List.all_eq_true, decide_eq_true_eq] at hall
        exact hjn (hall j hj)
      cases hr : split_together cs fields name with
      | ok st =>
        obtain ⟨s0, t0⟩ := st
        rw [hr] at ih
        simp only [exceptOk] at ih ⊢
        constructor
        · intro h; exact absurd h (by simp)
        · intro ⟨d, hd, hmix⟩
          rcases List.mem_cons.mp hd with rfl | hd2
          · exact absurd hmix hnotmix
          · exact ih.mpr ⟨d, hd2, hmix⟩
      | error e =>
        rw [hr] at ih
        simp only [exceptOk] at ih ⊢
        obtain ⟨d, hd, hmix⟩ := ih.mp trivial
        exact iff_of_true trivial ⟨d, List.mem_cons_of_mem c hd, hmix⟩
    · rw [split_together, if_neg hall]
      by_cases hany : c.any (fun item => decide (item ∈ fields))
      · rw [if_neg (by simp [hany])]
        have hmix : mixedConstraint fields c := by
          simp only [List.any_eq_true, decide_eq_true_eq] at hany
          simp only [List.all_eq_true, decide_eq_true_eq, not_forall] at hall
          obtain ⟨j, hj, hjn⟩ := hall
          exact ⟨hany, j, hj, hjn⟩
        simp only [exceptOk, true_iff]
        exact ⟨c, List.mem_cons_self c cs, hmix⟩
      · rw [if_pos (by simp [hany])]
        have hnotmix : ¬ mixedConstraint fields c := by
          intro ⟨⟨i, hi, hif⟩, _⟩
          simp only [List.any_eq_true, decide_eq_true_eq, not_exists] at hany
          exact absurd hif (by intro hmem; exact (hany i) ⟨hi, hmem⟩)
        cases hr : split_together cs fields name with
        | ok st =>
          obtain ⟨s0, t0⟩ := st
          rw [hr] at ih
          simp only [exceptOk] at ih ⊢
          constructor
          · intro h; exact absurd h (by simp)
          · intro ⟨d, hd, hmix⟩
            rcases List.mem_cons.mp hd with rfl | hd2
            · exact absurd hmix hnotmix
            · exact ih.mpr ⟨d, hd2, hmix⟩
        | error e =>
          rw [hr] at ih
          simp only [exceptOk] at ih ⊢
          obtain ⟨d, hd, hmix⟩ := ih.mp trivial
          exact iff_of_true trivial ⟨d, List.mem_cons_of_mem c hd, hmix⟩

theorem count_filter_not {α : Type} [BEq α] (p : α → Bool) (l : List α)
    (a : α) :
    (l.filter (fun x => !(p x))).count a + (l.filter p).count a = l.count a := by
  induction l with
  | nil => simp
  | cons b l ih =>
    by_cases hp : p b <;> by_cases hb : (b == a) = true <;>
      simp [List.filter, hp, List.count_cons, hb] <;> omega

/-- C1 counterexample (as stated, the claim fails): the empty constraint has
all of its fields non-translated (vacuously) yet `_split_together` places it
in the translated output, not the shared one. -/
theorem claim_c1_counterexample :
    ¬ (∀ (constraints : List (List String)) (fields : List String) (name : String)
        (s t : List (List String)),
        split_together constraints fields name = Except.ok (s, t) →
        ∀ c ∈ constraints, (∀ i ∈ c, i ∉ fields) → c ∈ s) := by
  intro h
  have := h [[]] [] "unique_together" [] [[]] rfl [] (by simp) (by simp)
  simp at this

/-- C1 (amended): `_split_together` places every constraint whose fields are
all translated (the empty constraint included, vacuously) in the translated
output, every nonempty constraint whose fields are all non-translated in the
shared output, fails with a configuration error exactly when some constraint
mixes both kinds, and on success the two outputs form a total, disjoint split
of the input preserving input order within each output. -/
theorem claim_c1_split_together (constraints : List (List String))
    (fields : List String) (name : String) :
    (∀ s t, split_together constraints fields name = Except.ok (s, t) →
      (∀ c ∈ constraints, (∀ i ∈ c, i ∈ fields) → c ∈ t) ∧
      (∀ c ∈ constraints, c ≠ [] → (∀ i ∈ c, i ∉ fields) → c ∈ s) ∧
      (∀ c, c ∈ s → c ∉ t) ∧
      (∀ c, s.count c + t.count c = constraints.count c) ∧
      s.Sublist constraints ∧ t.Sublist constraints) ∧
    (exceptOk (split_together constraints fields name) = false ↔
      ∃ c ∈ constraints, mixedConstraint fields c) := by
  refine ⟨?_, split_together_error_iff constraints fields name⟩
  intro s t h
  obtain ⟨hs, ht⟩ := split_together_ok constraints fields name s t h
  subst hs; subst ht
  refine ⟨?_, ?_, ?_, ?_, List.filter_sublist _, List.filter_sublist _⟩
  · intro c hc hall
    refine List.mem_filter.mpr ⟨hc, ?_⟩
    simp only [List.all_eq_true, decide_eq_true_eq]
    exact hall
  · intro c hc hne hnone
    refine List.mem_filter.mpr ⟨hc, ?_⟩
    cases c with
    | nil => exact absurd rfl hne
    | cons i c0 =>
      have hfail : ¬ ((i :: c0).all (fun item => decide (item ∈ fields)) = true) := by
        simp only [List.all_eq_true, decide_eq_true_eq]
        intro hcontra
        exact hnone i (List.mem_cons_self i c0) (hcontra i (List.mem_cons_self i c0))
      cases hb : (i :: c0).all (fun item => decide (item ∈ fields)) with
      | true => exact absurd hb hfail
      | false => rfl
  · intro c hcs hct
    have h1 := (List.mem_filter.mp hcs).2
    have h2 := (List.mem_filter.mp hct).2
    rw [h2] at h1
    exact absurd h1 (by simp)
  · intro c
    exact count_filter_not (fun c => c.all (fun item => decide (item ∈ fields)))
      constraints c

/-- Witness for C1: a concrete run where a fully-translated constraint lands
in the translated output, a fully-shared one in the shared output, and no
error is raised. -/
theorem claim_c1_split_together_witness :
    (["a"] : List String) ∈ [(["a"] : List String)] ∧
    (["b"] : List String) ∈ [(["b"] : List String)] ∧
    exceptOk (split_together [["a"], ["b"]] ["a"] "unique_together") = true := by
  have h := claim_c1_split_together [["a"], ["b"]] ["a"] "unique_together"
  have h1 := h.1 [["b"]] [["a"]] rfl
  refine ⟨h1.1 ["a"] (by simp) (by simp), h1.2.1 ["b"] (by simp) (by simp)
    (by simp), ?_⟩
  cases he : exceptOk (split_together [["a"], ["b"]] ["a"] "unique_together") with
  | true => rfl
  | false =>
    obtain ⟨c, hc, hmix⟩ := h.2.mp he
    rcases hc with hc | hc <;> simp_all [mixedConstraint]

/-- C4: `translate(language_code)` replaces the instance's cached active
translation with a brand-new, unsaved translation record carrying exactly the
given language code (every other field at its default, `pk = none`), leaving
the shared record untouched; being a pure function of the instance and the
language code alone, it neither reads nor writes storage and in particular
never checks whether a translation for that language already exists. -/
theorem claim_c4_translate (inst : Instance) (language_code : Value) :
    translate inst language_code =
      { shared := inst.shared,
        translation := some { language_code := language_code, fields := [],
                              pk := none } } := by
  simp [translate, newTranslation, List.lookup, List.filter]

theorem splitUpdateFields_t_empty (veto tfieldNames : List String)
    (uf : List String) (h : ∀ f ∈ uf, f ∈ veto ∨ f ∉ tfieldNames) :
    (splitUpdateFields veto tfieldNames uf).2 = [] := by
  induction uf with
  | nil => rfl
  | cons a rest ih =>
    have hrest := ih (fun f hf => h f (List.mem_cons_of_mem a hf))
    have ha := h a (List.mem_cons_self a rest)
    simp only [splitUpdateFields]
    rcases ha with ha | ha
    · simp [ha, hrest]
    · by_cases hv : a ∈ veto
      · simp [hv, hrest]
      · simp [hv, ha, hrest]

/-- C3: a `save` whose `update_fields` list contains only shared names (veto
names or names not on the translation schema) does not write the translation
record at all, no matter which translation is attached or what state it is
in. -/
theorem claim_c3_save_shared_only (tpkName : String) (tfieldNames : List String)
    (translation : Option Translation) (uf : List String)
    (h : ∀ f ∈ uf, f ∈ vetoNames tpkName ∨ f ∉ tfieldNames) :
    (hvadSave tpkName tfieldNames translation (some uf)).translationSave
      = none := by
  have ht := splitUpdateFields_t_empty (vetoNames tpkName) tfieldNames uf h
  cases translation with
  | none => simp [hvadSave]
  | some tr => simp [hvadSave, ht]

/-- Witness for C3: a dirty, already-attached, unsaved translation is not
written when only the shared field `a` is in `update_fields`. -/
theorem claim_c3_save_shared_only_witness :
    (∀ f ∈ ["a"], f ∈ vetoNames "id" ∨ f ∉ ["id", "language_code", "title"]) ∧
    (hvadSave "id" ["id", "language_code", "title"]
      (some { language_code := Value.vstr "en",
              fields := [("title", Value.vstr "dirty")], pk := none })
      (some ["a"])).translationSave = none := by
  refine ⟨by decide, ?_⟩
  exact claim_c3_save_shared_only "id" ["id", "language_code", "title"]
    (some { language_code := Value.vstr "en",
            fields := [("title", Value.vstr "dirty")], pk := none })
    ["a"] (by decide)

/-! ### Association-list lemmas for the kwargs split -/

theorem splitKwargs_mem_s (veto tfieldNames : List String)
    (kwargs : List (String × Value)) (kv : String × Value) (h : kv ∈ kwargs)
    (hp : kv.1 ∈ veto ∨ kv.1 ∉ tfieldNames) :
    kv ∈ (splitKwargs veto tfieldNames kwargs).1 := by
  induction kwargs with
  | nil => cases h
  | cons a rest ih =>
    simp only [splitKwargs]
    rcases List.mem_cons.mp h with rfl | hr
    · rcases hp with hp | hp
      · simp [hp]
      · by_cases hv : kv.1 ∈ veto
        · simp [hv]
        · simp [hv, hp]
    · have hmem := ih hr
      by_cases hv : a.1 ∈ veto
      · simp [hv, hmem]
      · by_cases ht : a.1 ∈ tfieldNames
        · simp [hv, ht, hmem]
        · simp [hv, ht, hmem]

theorem splitKwargs_mem_t (veto tfieldNames : List String)
    (kwargs : List (String × Value)) (kv : String × Value) (h : kv ∈ kwargs)
    (hp1 : kv.1 ∉ veto) (hp2 : kv.1 ∈ tfieldNames) :
    kv ∈ (splitKwargs veto tfieldNames kwargs).2 := by
  induction kwargs with
  | nil => cases h
  | cons a rest ih =>
    simp only [splitKwargs]
    rcases List.mem_cons.mp h with rfl | hr
    · simp [hp1, hp2]
    · have hmem := ih hr
      by_cases hv : a.1 ∈ veto
      · simp [hv, hmem]
      · by_cases ht : a.1 ∈ tfieldNames
        · simp [hv, ht, hmem]
        · simp [hv, ht, hmem]

theorem splitKwargs_t_subset (veto tfieldNames : List String)
    (kwargs : List (String × Value)) (kv : String × Value)
    (h : kv ∈ (splitKwargs veto tfieldNames kwargs).2) : kv ∈ kwargs := by
  induction kwargs with
  | nil => cases h
  | cons a rest ih =>
    simp only [splitKwargs] at h
    by_cases hv : a.1 ∈ veto
    · simp only [hv, if_pos] at h
      exact List.mem_cons_of_mem a (ih h)
    · by_cases ht : a.1 ∈ tfieldNames
      · simp only [hv, ht, if_neg, if_pos, if_true, if_false] at h
        rcases List.mem_cons.mp h with rfl | hr
        · exact List.mem_cons_self kv rest
        · exact List.mem_cons_of_mem a (ih hr)
      · simp only [hv, ht, if_neg, if_false] at h
        exact List.mem_cons_of_mem a (ih h)

theorem splitKwargs_append (veto tfieldNames : List String)
    (l1 l2 : List (String × Value)) :
    splitKwargs veto tfieldNames (l1 ++ l2) =
      ((splitKwargs veto tfieldNames l1).1 ++ (splitKwargs veto tfieldNames l2).1,
       (splitKwargs veto tfieldNames l1).2 ++ (splitKwargs veto tfieldNames l2).2) := by
  induction l1 with
  | nil => simp [splitKwargs]
  | cons a rest ih =>
    simp only [List.cons_append, splitKwargs]
    by_cases hv : a.1 ∈ veto
    · simp [hv, ih]
    · by_cases ht : a.1 ∈ tfieldNames
      · simp [hv, ht, ih]
      · simp [hv, ht, ih]

theorem splitKwargs_lookup_t (veto tfieldNames : List String)
    (kwargs : List (String × Value)) (k : String) (h1 : k ∉ veto)
    (h2 : k ∈ tfieldNames) :
    ((splitKwargs veto tfieldNames kwargs).2).lookup k = kwargs.lookup k := by
  induction kwargs with
  | nil => rfl
  | cons a rest ih =>
    simp only [splitKwargs]
    by_cases hak : a.1 = k
    · have hv : a.1 ∉ veto := by rw [hak]; exact h1
      have ht : a.1 ∈ tfieldNames := by rw [hak]; exact h2
      obtain ⟨a1, a2⟩ := a
      simp only at hak
      subst hak
      simp [hv, ht, List.lookup]
    · obtain ⟨a1, a2⟩ := a
      simp only at hak
      have hbeq : (k == a1) = false := beq_eq_false_iff_ne.mpr (Ne.symm hak)
      by_cases hv : a1 ∈ veto
      · simp [hv, List.lookup, hbeq, ih]
      · by_cases ht : a1 ∈ tfieldNames
        · simp [hv, ht, List.lookup, hbeq, ih]
        · simp [hv, ht, List.lookup, hbeq, ih]

theorem lookup_none_of_keys_ne (k : String) (l : List (String × Value))
    (h : ∀ kv ∈ l, kv.1 ≠ k) : l.lookup k = none := by
  induction l with
  | nil => rfl
  | cons a rest ih =>
    have ha : a.1 ≠ k := h a (List.mem_cons_self a rest)
    obtain ⟨a1, a2⟩ := a
    simp only at ha
    simp [List.lookup, beq_eq_false_iff_ne.mpr (Ne.symm ha),
      ih (fun kv hkv => h kv (List.mem_cons_of_mem _ hkv))]

theorem lookup_append_right (k : String) (l1 l2 : List (String × Value))
    (h : ∀ kv ∈ l1, kv.1 ≠ k) : (l1 ++ l2).lookup k = l2.lookup k := by
  induction l1 with
  | nil => rfl
  | cons a rest ih =>
    have ha : a.1 ≠ k := h a (List.mem_cons_self a rest)
    obtain ⟨a1, a2⟩ := a
    simp only at ha
    simp [List.lookup, beq_eq_false_iff_ne.mpr (Ne.symm ha),
      ih (fun kv hkv => h kv (List.mem_cons_of_mem _ hkv))]

theorem lookup_setKey (l : List (String × Value)) (k : String) (v : Value) :
    (setKey l k v).lookup k = some v := by
  induction l with
  | nil => simp [setKey, List.lookup]
  | cons a rest ih =>
    by_cases hak : a.1 = k
    · simp [setKey, hak, List.lookup]
    · obtain ⟨a1, a2⟩ := a
      simp only at hak
      simp [setKey, hak, List.lookup, beq_eq_false_iff_ne.mpr (Ne.symm hak), ih]

theorem setKey_mem (l : List (String × Value)) (kv : String × Value)
    (k : String) (v : Value) (h : kv ∈ l) (hne : kv.1 ≠ k) :
    kv ∈ setKey l k v := by
  induction l with
  | nil => cases h
  | cons a rest ih =>
    by_cases hak : a.1 = k
    · simp only [setKey, hak, if_pos]
      rcases List.mem_cons.mp h with rfl | hr
      · exact absurd hak hne
      · exact List.mem_cons_of_mem _ hr
    · simp only [setKey, hak, if_neg, if_false]
      rcases List.mem_cons.mp h with rfl | hr
      · exact List.mem_cons_self kv _
      · exact List.mem_cons_of_mem a (ih hr)

theorem filter_setKey (l : List (String × Value)) (k : String) (v : Value) :
    (setKey l k v).filter (fun kv => kv.1 ≠ k) =
      l.filter (fun kv => kv.1 ≠ k) := by
  induction l with
  | nil => simp [setKey]
  | cons a rest ih =>
    by_cases hak : a.1 = k
    · simp [setKey, hak, List.filter]
    · have hsk : setKey (a :: rest) k v = a :: setKey rest k v := by
        simp [setKey, hak]
      rw [hsk, List.filter_cons, List.filter_cons, ih]

/-- C2 counterexample (as stated, the claim fails): an explicit but falsy
`language_code` — here the empty string — is not used as the translation's
language; the ambient active language is used instead. -/
theorem claim_c2_counterexample :
    ((hvadInit "id" ["id", "language_code", "title"] [] (Value.vstr "en") []
        [("language_code", Value.vstr "")]).translation.map
      Translation.language_code) = some (Value.vstr "en") ∧
    Value.vstr "en" ≠ Value.vstr "" := by
  exact ⟨by decide, by decide⟩

/-- C2 (amended): construction routes every kwarg whose name is a veto
(identity/linkage) name or is absent from the translation schema to the
shared record and every other kwarg to a newly attached, unsaved translation
record — except that when the resolved language is the `NoTranslation`
sentinel no translation is attached at all — and the translation's language
code is the explicit `language_code` kwarg when given and truthy, else the
ambient active language. -/
theorem claim_c2_init (tpkName : String) (tfieldNames : List String)
    (ambient : Value) (kwargs : List (String × Value))
    (hlc1 : "language_code" ∉ vetoNames tpkName)
    (hlc2 : "language_code" ∈ tfieldNames) :
    (∀ kv ∈ kwargs, kv.1 ∈ vetoNames tpkName ∨ kv.1 ∉ tfieldNames →
      kv ∈ (hvadInit tpkName tfieldNames [] ambient [] kwargs).shared) ∧
    (resolveLanguage (kwargs.lookup "language_code") ambient = Value.noTranslation →
      (hvadInit tpkName tfieldNames [] ambient [] kwargs).translation = none) ∧
    (resolveLanguage (kwargs.lookup "language_code") ambient ≠ Value.noTranslation →
      ∃ tr, (hvadInit tpkName tfieldNames [] ambient [] kwargs).translation = some tr ∧
        tr.pk = none ∧
        tr.language_code = resolveLanguage (kwargs.lookup "language_code") ambient ∧
        ∀ kv ∈ kwargs, kv.1 ∉ vetoNames tpkName → kv.1 ∈ tfieldNames →
          kv.1 ≠ "language_code" → kv ∈ tr.fields) := by
  have hlu : ((splitKwargs (vetoNames tpkName) tfieldNames kwargs).2).lookup
      "language_code" = kwargs.lookup "language_code" :=
    splitKwargs_lookup_t (vetoNames tpkName) tfieldNames kwargs "language_code"
      hlc1 hlc2
  by_cases hne : resolveLanguage (kwargs.lookup "language_code") ambient
      = Value.noTranslation
  · refine ⟨?_, fun _ => ?_, fun hcon => absurd hne hcon⟩
    · intro kv hkv hp
      simp only [hvadInit, hlu, hne, List.zip_nil_left, List.nil_append,
        ne_eq, not_true_eq_false, if_false, ite_false]
      exact splitKwargs_mem_s (vetoNames tpkName) tfieldNames kwargs kv hkv hp
    · simp [hvadInit, hlu, hne]
  · refine ⟨?_, fun heq => absurd heq hne, fun _ => ?_⟩
    · intro kv hkv hp
      simp only [hvadInit, hlu, hne, List.zip_nil_left, List.nil_append,
        ne_eq, not_false_iff, if_true, ite_true]
      exact splitKwargs_mem_s (vetoNames tpkName) tfieldNames kwargs kv hkv hp
    · refine ⟨newTranslation (setKey
        (splitKwargs (vetoNames tpkName) tfieldNames kwargs).2 "language_code"
        (resolveLanguage (kwargs.lookup "language_code") ambient)), ?_, rfl, ?_, ?_⟩
      · simp [hvadInit, hlu, hne]
      · simp [newTranslation, lookup_setKey]
      · intro kv hkv h1 h2 h3
        have hmt := splitKwargs_mem_t (vetoNames tpkName) tfieldNames kwargs kv
          hkv h1 h2
        have hsk := setKey_mem _ kv "language_code"
          (resolveLanguage (kwargs.lookup "language_code") ambient) hmt h3
        simp only [newTranslation, List.mem_filter]
        exact ⟨hsk, by simp [h3]⟩

/-- Witness for C2: constructing with a shared kwarg (`slug`, not on the
translation schema) and a translated kwarg (`title`) puts `slug` on the
shared record and `title` on a fresh unsaved translation whose language is
the ambient one. -/
theorem claim_c2_init_witness :
    ("slug", Value.vstr "s") ∈ (hvadInit "id" ["id", "language_code", "title"]
        [] (Value.vstr "en") []
        [("slug", Value.vstr "s"), ("title", Value.vstr "h")]).shared ∧
    ∃ tr, (hvadInit "id" ["id", "language_code", "title"] [] (Value.vstr "en")
        [] [("slug", Value.vstr "s"), ("title", Value.vstr "h")]).translation
        = some tr ∧
      tr.pk = none ∧ tr.language_code = Value.vstr "en" ∧
      ("title", Value.vstr "h") ∈ tr.fields := by
  have h := claim_c2_init "id" ["id", "language_code", "title"] (Value.vstr "en")
    [("slug", Value.vstr "s"), ("title", Value.vstr "h")] (by decide) (by decide)
  refine ⟨h.1 ("slug", Value.vstr "s") (by simp) (by right; decide), ?_⟩
  obtain ⟨tr, htr, hpk, hlangc, hfl⟩ := h.2.2 (by decide)
  exact ⟨tr, htr, hpk, by rw [hlangc]; decide,
    hfl ("title", Value.vstr "h") (by simp) (by decide) (by decide) (by decide)⟩

/-- C9: an explicit falsy `language_code` kwarg (`None`, empty string, zero)
behaves exactly as if the argument had been omitted: the constructed entity
is identical, its translation using the ambient active language. -/
theorem claim_c9_falsy_language (tpkName : String)
    (tfieldNames concreteFields : List String) (ambient : Value)
    (args : List Value) (pre post : List (String × Value)) (v : Value)
    (hlc1 : "language_code" ∉ vetoNames tpkName)
    (hlc2 : "language_code" ∈ tfieldNames)
    (hpre : ∀ kv ∈ pre, kv.1 ≠ "language_code")
    (hpost : ∀ kv ∈ post, kv.1 ≠ "language_code")
    (hv : v.truthy = false) :
    hvadInit tpkName tfieldNames concreteFields ambient args
        (pre ++ ("language_code", v) :: post) =
      hvadInit tpkName tfieldNames concreteFields ambient args (pre ++ post) := by
  have hs1 := splitKwargs_append (vetoNames tpkName) tfieldNames pre
    (("language_code", v) :: post)
  have hs2 := splitKwargs_append (vetoNames tpkName) tfieldNames pre post
  have hmid : splitKwargs (vetoNames tpkName) tfieldNames
      (("language_code", v) :: post)
      = ((splitKwargs (vetoNames tpkName) tfieldNames post).1,
         ("language_code", v) ::
           (splitKwargs (vetoNames tpkName) tfieldNames post).2) := by
    simp [splitKwargs, hlc1, hlc2]
  have htpre : ∀ kv ∈ (splitKwargs (vetoNames tpkName) tfieldNames pre).2,
      kv.1 ≠ "language_code" :=
    fun kv hkv => hpre kv (splitKwargs_t_subset _ _ _ _ hkv)
  have htpost : ∀ kv ∈ (splitKwargs (vetoNames tpkName) tfieldNames post).2,
      kv.1 ≠ "language_code" :=
    fun kv hkv => hpost kv (splitKwargs_t_subset _ _ _ _ hkv)
  have hrw : ∀ l2 : List (String × Value),
      ((splitKwargs (vetoNames tpkName) tfieldNames pre).2 ++ l2).lookup
        "language_code" = l2.lookup "language_code" :=
    fun l2 => lookup_append_right _ _ _ htpre
  have hlpost : ((splitKwargs (vetoNames tpkName) tfieldNames post).2).lookup
      "language_code" = none :=
    lookup_none_of_keys_ne _ _ htpost
  have hfields : (setKey
        ((splitKwargs (vetoNames tpkName) tfieldNames pre).2 ++
          ("language_code", v) ::
            (splitKwargs (vetoNames tpkName) tfieldNames post).2)
        "language_code" ambient).filter (fun kv => kv.1 ≠ "language_code")
      = (setKey
          ((splitKwargs (vetoNames tpkName) tfieldNames pre).2 ++
            (splitKwargs (vetoNames tpkName) tfieldNames post).2)
          "language_code" ambient).filter (fun kv => kv.1 ≠ "language_code") := by
    rw [filter_setKey, filter_setKey, List.filter_append, List.filter_append,
      List.filter_cons]
    simp
  have hnt : newTranslation (setKey
        ((splitKwargs (vetoNames tpkName) tfieldNames pre).2 ++
          ("language_code", v) ::
            (splitKwargs (vetoNames tpkName) tfieldNames post).2)
        "language_code" ambient)
      = newTranslation (setKey
          ((splitKwargs (vetoNames tpkName) tfieldNames pre).2 ++
            (splitKwargs (vetoNames tpkName) tfieldNames post).2)
          "language_code" ambient) := by
    simp only [newTranslation, lookup_setKey, hfields]
  simp only [hvadInit, hs1, hs2, hmid]
  simp only [hrw, hlpost]
  simp only [List.lookup, beq_self_eq_true, resolveLanguage, hv,
    Bool.false_eq_true, if_false, ite_false]
  rw [hnt]

/-- Witness for C9: passing `language_code=None` explicitly yields the very
same instance as omitting it. -/
theorem claim_c9_falsy_language_witness :
    hvadInit "id" ["id", "language_code", "title"] [] (Value.vstr "en") []
        [("title", Value.vstr "t"), ("language_code", Value.vnone)] =
      hvadInit "id" ["id", "language_code", "title"] [] (Value.vstr "en") []
        [("title", Value.vstr "t")] :=
  claim_c9_falsy_language "id" ["id", "language_code", "title"] []
    (Value.vstr "en") [] [("title", Value.vstr "t")] [] Value.vnone
    (by decide) (by decide) (by decide) (by decide) rfl

theorem all_of_filter_length_eq {α : Type} (p : α → Bool) (l : List α)
    (h : (l.filter p).length = l.length) : ∀ x ∈ l, p x = true := by
  induction l with
  | nil => intro x hx; cases hx
  | cons a rest ih =>
    by_cases hp : p a
    · intro x hx
      rcases List.mem_cons.mp hx with rfl | hx2
      · exact hp
      · exact ih (by simpa [List.filter_cons, hp] using h) x hx2
    · exfalso
      have hle := List.length_filter_le p rest
      simp [List.filter_cons, hp] at h
      omega

theorem deferValues_spec (fn : List String) (cf : List String) (vs : List Value)
    (h : vs.length = (cf.filter (fun f => decide (f ∈ fn))).length) :
    ∃ out, deferValues fn cf vs = some out ∧
      out.length = cf.length ∧
      (∀ p ∈ cf.zip out, p.1 ∉ fn → p.2 = Value.deferred) ∧
      ((cf.zip out).filter (fun p => decide (p.1 ∈ fn))).map Prod.snd = vs := by
  induction cf generalizing vs with
  | nil =>
    have hvs : vs = [] := List.length_eq_zero.mp (by simpa using h)
    subst hvs
    exact ⟨[], rfl, rfl, by simp, by simp⟩
  | cons f fs ih =>
    by_cases hf : f ∈ fn
    · cases vs with
      | nil => simp [List.filter_cons, hf] at h
      | cons v vs0 =>
        have h0 : vs0.length = (fs.filter (fun f => decide (f ∈ fn))).length := by
          simp only [List.filter_cons, hf, decide_True, if_true, ite_true,
            List.length_cons] at h ⊢
          omega
        obtain ⟨out, hout, hlen, hdef, hpos⟩ := ih vs0 h0
        refine ⟨v :: out, ?_, ?_, ?_, ?_⟩
        · simp [deferValues, hf, hout]
        · simp [hlen]
        · intro p hp hnp
          rw [List.zip_cons_cons] at hp
          rcases List.mem_cons.mp hp with rfl | hp2
          · exact absurd hf hnp
          · exact hdef p hp2 hnp
        · rw [List.zip_cons_cons, List.filter_cons]
          simp only [hf, decide_True, if_true, ite_true, List.map_cons, hpos]
    · obtain ⟨out, hout, hlen, hdef, hpos⟩ := ih vs
        (by simpa [List.filter_cons, hf] using h)
      refine ⟨Value.deferred :: out, ?_, ?_, ?_, ?_⟩
      · simp [deferValues, hf, hout]
      · simp [hlen]
      · intro p hp hnp
        rw [List.zip_cons_cons] at hp
        rcases List.mem_cons.mp hp with rfl | hp2
        · rfl
        · exact hdef p hp2 hnp
      · rw [List.zip_cons_cons, List.filter_cons]
        simp [hf, hpos]

theorem hvadInit_noTranslation (tpkName : String)
    (tfieldNames concreteFields : List String) (ambient : Value)
    (args : List Value) (hlc1 : "language_code" ∉ vetoNames tpkName)
    (hlc2 : "language_code" ∈ tfieldNames) :
    hvadInit tpkName tfieldNames concreteFields ambient args
        [("language_code", Value.noTranslation)] =
      { shared := concreteFields.zip args, translation := none } := by
  simp [hvadInit, splitKwargs, hlc1, hlc2, List.lookup, resolveLanguage,
    Value.truthy]

/-- C5: rehydration from storage reconstructs the shared entity positionally
— every concrete field absent from `field_names` carries the `DEFERRED`
marker, the present fields are bound, in order, to exactly the incoming
values — and no active translation is attached (the `NoTranslation` sentinel
suppresses attachment). -/
theorem claim_c5_from_db (tpkName : String)
    (tfieldNames concreteFields : List String) (ambient : Value)
    (field_names : List String) (values : List Value)
    (hlc1 : "language_code" ∉ vetoNames tpkName)
    (hlc2 : "language_code" ∈ tfieldNames)
    (hlen : values.length =
      (concreteFields.filter (fun f => decide (f ∈ field_names))).length) :
    ∃ inst, from_db tpkName tfieldNames concreteFields ambient field_names
        values = some inst ∧
      inst.translation = none ∧
      inst.shared.map Prod.fst = concreteFields ∧
      (∀ p ∈ inst.shared, p.1 ∉ field_names → p.2 = Value.deferred) ∧
      (inst.shared.filter (fun p => decide (p.1 ∈ field_names))).map Prod.snd
        = values := by
  by_cases heq : values.length = concreteFields.length
  · have hall : ∀ f ∈ concreteFields, decide (f ∈ field_names) = true :=
      all_of_filter_length_eq _ _ (by omega)
    refine ⟨{ shared := concreteFields.zip values, translation := none },
      ?_, rfl, ?_, ?_, ?_⟩
    · simp only [from_db, heq, ne_eq, not_true_eq_false, if_false, ite_false]
      rw [hvadInit_noTranslation tpkName tfieldNames concreteFields ambient
        values hlc1 hlc2]
    · exact List.map_fst_zip concreteFields values (by omega)
    · intro p hp hnp
      obtain ⟨h1, _⟩ := List.of_mem_zip hp
      exact absurd (of_decide_eq_true (hall p.1 h1)) hnp
    · rw [List.filter_eq_self.mpr
        (fun p hp => hall p.1 (List.of_mem_zip hp).1)]
      exact List.map_snd_zip concreteFields values (by omega)
  · obtain ⟨out, hout, hlen0, hdef, hpos⟩ :=
      deferValues_spec field_names concreteFields values hlen
    refine ⟨{ shared := concreteFields.zip out, translation := none },
      ?_, rfl, ?_, hdef, hpos⟩
    · simp only [from_db]
      rw [if_pos heq, hout, Option.map_some']
      exact congrArg some (hvadInit_noTranslation tpkName tfieldNames
        concreteFields ambient out hlc1 hlc2)
    · exact List.map_fst_zip concreteFields out (by omega)

/-- Witness for C5: loading only the `id` column of a two-column entity
defers `title`, binds `id` to the loaded value, and attaches no translation. -/
theorem claim_c5_from_db_witness :
    ∃ inst, from_db "id" ["id", "language_code", "title"] ["id", "title"]
        (Value.vstr "en") ["id"] [Value.vint 1] = some inst ∧
      inst.translation = none ∧
      inst.shared.map Prod.fst = ["id", "title"] ∧
      (∀ p ∈ inst.shared, p.1 ∉ ["id"] → p.2 = Value.deferred) ∧
      (inst.shared.filter (fun p => decide (p.1 ∈ ["id"]))).map Prod.snd
        = [Value.vint 1] :=
  claim_c5_from_db "id" ["id", "language_code", "title"] ["id", "title"]
    (Value.vstr "en") ["id"] [Value.vint 1] (by decide) (by decide) (by decide)

theorem count_eq_one_of_nodup_mem {α : Type} [BEq α] [LawfulBEq α]
    {l : List α} {a : α} (hn : l.Nodup) (h : a ∈ l) : l.count a = 1 := by
  induction l with
  | nil => cases h
  | cons b rest ih =>
    obtain ⟨hb, hrest⟩ := List.nodup_cons.mp hn
    by_cases hba : b = a
    · subst hba
      have hz : rest.count b = 0 := by
        rw [List.count_eq_zero]
        exact hb
      simp [List.count_cons, hz]
    · have ha : a ∈ rest := by
        rcases List.mem_cons.mp h with rfl | h2
        · exact absurd rfl hba
        · exact h2
      have hab : ¬ a = b := fun hc => hba hc.symm
      simp [List.count_cons, hba, hab, ih hrest ha]

theorem mem_fieldIdents (fs : List MField) (tf : MField) (s : String)
    (h : tf ∈ fs) (hs : s = tf.name ∨ s = tf.attname) :
    s ∈ fieldIdents fs := by
  simp only [fieldIdents, List.mem_dedup, List.mem_flatten]
  refine ⟨[tf.name, tf.attname], List.mem_map.mpr ⟨tf, h, rfl⟩, ?_⟩
  rcases hs with rfl | rfl <;> simp

/-- C6: when a translation field (other than the `id`/`master` bookkeeping
fields) has its name — or its storage-column attname — also present among
the shared fields' identifiers, the schema check reports exactly one error
for that identifier; the check returns its errors in a list instead of
raising (it is a total function into `List`), so class construction does not
raise. -/
theorem claim_c6_shared_translated_clash (sharedFields tFields : List MField)
    (tf : MField) (s : String) (htf : tf ∈ tFields)
    (hexcl : tf.name ∉ ["id", "master"])
    (hs : s = tf.name ∨ s = tf.attname)
    (hclash : s ∈ fieldIdents sharedFields) :
    (check_shared_translated_clash sharedFields tFields).count s = 1 := by
  have hmemt : s ∈ fieldIdents (tFields.filter
      (fun f => decide (f.name ∉ ["id", "master"]))) :=
    mem_fieldIdents _ tf s (List.mem_filter.mpr ⟨htf, by simpa using hexcl⟩) hs
  have hnodup : (fieldIdents (tFields.filter
      (fun f => decide (f.name ∉ ["id", "master"])))).Nodup :=
    List.nodup_dedup _
  have hmem : s ∈ check_shared_translated_clash sharedFields tFields := by
    simp only [check_shared_translated_clash]
    exact List.mem_filter.mpr ⟨hmemt, by simpa using hclash⟩
  exact count_eq_one_of_nodup_mem
    (List.Nodup.filter _ hnodup) hmem

/-- Witness for C6: translated `title` clashing with a shared `title` yields
exactly one error naming `title`. -/
theorem claim_c6_shared_translated_clash_witness :
    (check_shared_translated_clash
      [{ name := "id", attname := "id" }, { name := "title", attname := "title" }]
      [{ name := "id", attname := "id" },
       { name := "language_code", attname := "language_code" },
       { name := "title", attname := "title" }]).count "title" = 1 :=
  claim_c6_shared_translated_clash _ _
    { name := "title", attname := "title" } "title" (by decide) (by decide)
    (Or.inl rfl) (by decide)

/-- C7: the ordering check reports exactly one error per distinct ordering
entry that — after dropping `'?'` entries, stripping a leading `'-'` and
excluding the special `'pk'`/`'_order'` names and relation lookups —
resolves against neither the shared fields' identifiers nor the translation
fields' identifiers (with `master` and `language_code` excluded), and
reports no error at all for an entry naming a translated field. -/
theorem claim_c7_check_ordering (ordering : List String)
    (sharedFields tFields : List MField) :
    (∀ g f, g ∈ ordering → g ≠ "?" →
      (if startsWithDash g then dropOne g else g) = f →
      f ∉ ["_order", "pk"] → hasDunder f = false →
      f ∉ fieldIdents sharedFields →
      f ∉ fieldIdents (tFields.filter
        (fun t => decide (t.name ∉ ["master", "language_code"]))) →
      (check_ordering ordering sharedFields tFields).count f = 1) ∧
    (∀ tf s, tf ∈ tFields → tf.name ∉ ["master", "language_code"] →
      (s = tf.name ∨ s = tf.attname) →
      s ∉ check_ordering ordering sharedFields tFields) := by
  constructor
  · intro g f hg hq hstrip hspecial hdunder hvf hvt
    have hne : ordering ≠ [] := fun hc => by subst hc; cases hg
    have h0 : g ∈ ordering.filter (fun f => decide (f ≠ "?")) :=
      List.mem_filter.mpr ⟨hg, by simpa using hq⟩
    have h1 : f ∈ (ordering.filter (fun f => decide (f ≠ "?"))).map
        (fun f => if startsWithDash f then dropOne f else f) :=
      List.mem_map.mpr ⟨g, h0, hstrip⟩
    have h2 : f ∈ ((ordering.filter (fun f => decide (f ≠ "?"))).map
        (fun f => if startsWithDash f then dropOne f else f)).filter
        (fun f => decide (f ∉ ["_order", "pk"]) && !(hasDunder f)) :=
      List.mem_filter.mpr ⟨h1, by
        simp only [Bool.and_eq_true, decide_eq_true_eq, Bool.not_eq_true']
        exact ⟨hspecial, hdunder⟩⟩
    have h3 := List.mem_dedup.mpr h2
    have hmem : f ∈ check_ordering ordering sharedFields tFields := by
      simp only [check_ordering, hne, if_neg, ite_false]
      exact List.mem_filter.mpr ⟨h3, by
        simp only [Bool.and_eq_true, decide_eq_true_eq]
        exact ⟨hvf, hvt⟩⟩
    have hnodup : (check_ordering ordering sharedFields tFields).Nodup := by
      simp only [check_ordering, hne, if_neg, ite_false]
      exact List.Nodup.filter _ (List.nodup_dedup _)
    exact count_eq_one_of_nodup_mem hnodup hmem
  · intro tf s htf hexcl hs hmem
    have hvt : s ∈ fieldIdents (tFields.filter
        (fun t => decide (t.name ∉ ["master", "language_code"]))) :=
      mem_fieldIdents _ tf s (List.mem_filter.mpr ⟨htf, by simpa using hexcl⟩) hs
    by_cases hne : ordering = []
    · simp [check_ordering, hne] at hmem
    · simp only [check_ordering, hne, if_neg, ite_false] at hmem
      have := (List.mem_filter.mp hmem).2
      simp only [Bool.and_eq_true, decide_eq_true_eq] at this
      exact this.2 hvt

/-- Witness for C7: `ordering = ('-title', 'bogus')` over a shared `id` and
a translated `title` yields exactly one error, for `bogus`, and none for
`title`. -/
theorem claim_c7_check_ordering_witness :
    (check_ordering ["-title", "bogus"] [{ name := "id", attname := "id" }]
      [{ name := "title", attname := "title" },
       { name := "master", attname := "master_id" }]).count "bogus" = 1 ∧
    "title" ∉ check_ordering ["-title", "bogus"]
      [{ name := "id", attname := "id" }]
      [{ name := "title", attname := "title" },
       { name := "master", attname := "master_id" }] := by
  have h := claim_c7_check_ordering ["-title", "bogus"]
    [{ name := "id", attname := "id" }]
    [{ name := "title", attname := "title" },
     { name := "master", attname := "master_id" }]
  exact ⟨h.1 "bogus" "bogus" (by simp) (by decide) (by decide) (by decide)
      (by decide) (by decide) (by decide),
    h.2 { name := "title", attname := "title" } "title" (by simp) (by decide)
      (Or.inl rfl)⟩

/-- C10: an ordering entry containing the relation-lookup separator `__` is
silently excluded from ordering validation: it never appears among the
reported unresolvable-field errors, whether or not the referenced path
exists. -/
theorem claim_c10_dunder_excluded (ordering : List String)
    (sharedFields tFields : List MField) (f : String)
    (h : hasDunder f = true) :
    f ∉ check_ordering ordering sharedFields tFields := by
  intro hmem
  by_cases hne : ordering = []
  · simp [check_ordering, hne] at hmem
  · simp only [check_ordering, hne, if_neg, ite_false] at hmem
    have h2 := (List.mem_filter.mp hmem).1
    have h3 := List.mem_dedup.mp h2
    have h4 := (List.mem_filter.mp h3).2
    simp [h] at h4

/-- Witness for C10: the dangling path `missing__name` is not reported even
though it resolves nowhere. -/
theorem claim_c10_dunder_excluded_witness :
    hasDunder "missing__name" = true ∧
    "missing__name" ∉ check_ordering ["missing__name"] [] [] :=
  ⟨by decide, claim_c10_dunder_excluded ["missing__name"] [] []
    "missing__name" (by decide)⟩

theorem one_le_sizeOf_list {α : Type} [SizeOf α] (l : List α) :
    1 ≤ sizeOf l := by
  cases l with
  | nil => simp
  | cons a l => simp only [List.cons.sizeOf_spec]; omega

theorem sizeOf_list_append {α : Type} [SizeOf α] (l1 l2 : List α) :
    sizeOf (l1 ++ l2) + 1 = sizeOf l1 + sizeOf l2 := by
  induction l1 with
  | nil =>
    have h0 : sizeOf ([] : List α) = 1 := rfl
    simp only [List.nil_append]
    omega
  | cons a l ih => simp only [List.cons_append, List.cons.sizeOf_spec]; omega

theorem hasCTAL_append (l1 l2 : List MClass) :
    hasCTAL (l1 ++ l2) = (hasCTAL l1 || hasCTAL l2) := by
  induction l1 with
  | nil => simp [hasCTAL]
  | cons c cs ih => simp [hasCTAL, ih, Bool.or_assoc]

theorem wfbL_append (l1 l2 : List MClass) (h1 : wfbL l1 = true)
    (h2 : wfbL l2 = true) : wfbL (l1 ++ l2) = true := by
  induction l1 with
  | nil => simpa using h2
  | cons c cs ih =>
    simp only [List.cons_append, wfbL, Bool.and_eq_true] at h1 ⊢
    exact ⟨h1.1, ih h1.2⟩

theorem scanStack_cons (name : String) (abstract : Bool) (kind : TMKind)
    (tf : Option (List String)) (bases rest : List MClass) :
    scanStack (MClass.mk name abstract kind tf bases :: rest)
      = if kind ≠ TMKind.sub then scanStack rest
        else if !abstract then
          Except.error ("Multi-table inheritance of translatable models is not " ++
            "supported. Concrete model " ++ name ++ " is not a valid base model.")
        else
          match tf with
          | some tfs =>
            match scanStack rest with
            | Except.ok (bs, fs) => Except.ok (tfs :: bs, tfs ++ fs)
            | Except.error e => Except.error e
          | none => scanStack (bases ++ rest) := by
  rw [scanStack.eq_def]

theorem scanStack_error_of_hasCTAL (n : Nat) :
    ∀ stack : List MClass, sizeOf stack ≤ n → wfbL stack = true →
      hasCTAL stack = true → exceptOk (scanStack stack) = false := by
  induction n with
  | zero =>
    intro stack hsize _ _
    exact absurd hsize (by
      have := one_le_sizeOf_list stack
      omega)
  | succ n ih =>
    intro stack hsize hwf hcta
    cases stack with
    | nil => simp [hasCTAL] at hcta
    | cons c rest =>
      obtain ⟨name, abstract, kind, tf, bases⟩ := c
      have hs0 : sizeOf (MClass.mk name abstract kind tf bases :: rest)
          = 1 + sizeOf (MClass.mk name abstract kind tf bases) + sizeOf rest := by
        simp
      have hs1 : 1 + sizeOf bases ≤ sizeOf (MClass.mk name abstract kind tf bases) := by
        simp only [MClass.mk.sizeOf_spec]
        omega
      have hrr := one_le_sizeOf_list rest
      have hrb := one_le_sizeOf_list bases
      simp only [wfbL, Bool.and_eq_true] at hwf
      obtain ⟨hwc, hwr⟩ := hwf
      simp only [MClass.wfb, Bool.and_eq_true] at hwc
      obtain ⟨⟨hwb, hplain⟩, htm⟩ := hwc
      simp only [hasCTAL] at hcta
      by_cases hk : kind = TMKind.sub
      · subst hk
        by_cases hab : abstract = true
        · subst hab
          cases tf with
          | some tfs =>
            simp only [Option.isSome_some, if_true, ite_true] at htm
            have hnb : hasCTAL bases = false := by
              cases hb : hasCTAL bases with
              | false => rfl
              | true =>
                have hszb : sizeOf bases ≤ n := by omega
                have hcon := ih bases hszb hwb hb
                rw [hcon] at htm
                cases htm
            have hcr : hasCTAL rest = true := by
              simp only [MClass.hasCTA, hnb] at hcta
              simpa using hcta
            have herr := ih rest (by omega) hwr hcr
            rw [scanStack_cons, if_neg (by simp), if_neg (by simp)]
            cases hrest : scanStack rest with
            | ok st =>
              rw [hrest] at herr
              simp [exceptOk] at herr
            | error e => rfl
          | none =>
            have hwapp := wfbL_append bases rest hwb hwr
            have hcapp : hasCTAL (bases ++ rest) = true := by
              rw [hasCTAL_append]
              simp only [MClass.hasCTA] at hcta
              simp only [Bool.or_eq_true] at hcta ⊢
              rcases hcta with h | h
              · left; simpa using h
              · right; exact h
            have happ := sizeOf_list_append bases rest
            rw [scanStack_cons, if_neg (by simp), if_neg (by simp)]
            exact ih (bases ++ rest) (by omega) hwapp hcapp
        · have hab0 : abstract = false := by
            cases abstract
            · rfl
            · exact absurd rfl hab
          subst hab0
          rw [scanStack_cons, if_neg (by simp), if_pos (by simp)]
          rfl
      · rw [if_neg hk] at hplain
        have hplain0 : hasCTAL bases = false := by
          cases hb : hasCTAL bases
          · rfl
          · rw [hb] at hplain; cases hplain
        have hcr : hasCTAL rest = true := by
          simp only [MClass.hasCTA, hplain0, hk] at hcta
          simpa using hcta
        rw [scanStack_cons, if_pos hk]
        exact ih rest (by omega) hwr hcr

/-- C8: a shared entity type declared with a concrete (non-abstract)
translatable ancestor anywhere in its base-class graph fails schema
synthesis at class-definition time: `create_translations_model` (through
`_scan_model_bases`) raises. The two hypotheses restrict the statement to
hierarchies Python can actually present at class-definition time: flags
respect `issubclass` transitivity, and any base already carrying a
`translations_model` got it from a base scan that succeeded. -/
theorem claim_c8_concrete_translatable_ancestor (modelBases : List MClass)
    (declared : List String) (unique_together index_together : List (List String))
    (hwf : wfbL modelBases = true) (hcta : hasCTAL modelBases = true) :
    exceptOk (create_translations_model modelBases declared unique_together
      index_together) = false := by
  have hmain := scanStack_error_of_hasCTAL (sizeOf modelBases) modelBases
    le_rfl hwf hcta
  simp only [create_translations_model, scan_model_bases]
  cases hscan : scanStack modelBases with
  | ok st =>
    rw [hscan] at hmain
    simp [exceptOk] at hmain
  | error e => rfl

/-- Witness for C8: a model deriving from a concrete translatable base fails
schema synthesis. -/
theorem claim_c8_concrete_translatable_ancestor_witness :
    wfbL [MClass.mk "parent" false TMKind.sub none []] = true ∧
    hasCTAL [MClass.mk "parent" false TMKind.sub none []] = true ∧
    exceptOk (create_translations_model
      [MClass.mk "parent" false TMKind.sub none []] ["title"] [] []) = false := by
  refine ⟨by decide, by decide, ?_⟩
  exact claim_c8_concrete_translatable_ancestor
    [MClass.mk "parent" false TMKind.sub none []] ["title"] [] []
    (by decide) (by decide)

end Hvad
